import Mathlib

/-!
Verification of the Twilio flow-to-Mermaid tool (`tools/twilio/mermaid`).

Shallow embedding conventions:
* Python dicts holding flow data become Lean structures; a key accessed via
  `d.get(k)` becomes an `Option` field, a key accessed via `d[k]` (which can
  raise `KeyError`) is modelled by matching on the `Option` and returning
  `Except.error` in the missing case.
* Python functions that can raise an uncaught exception return `Except String α`;
  the error string names the Python exception.
* File I/O is modelled by passing the file's parsed content as a parameter:
  `none` = no path given (falsy path), `some none` = file content is not valid
  JSON (`json.load` raises `json.JSONDecodeError`), `some (some m)` = parsed map.
* Python's truthiness tests are modelled explicitly (`None` and `""` and `[]`
  are falsy).
* The recursive traversals are embedded with an explicit `fuel` argument that
  bounds the recursion depth; a fuel of (number of distinct state names + 1)
  is proven sufficient (this is the termination theorem for the Python
  recursion, which has no fuel).
-/

/-- Condition dict of a transition; `friendly_name` is read with `.get`. -/
structure PyCondition where
  friendly_name : Option String
deriving DecidableEq, Repr

/-- Transition dict: `event`, `conditions` and `next` are all read with `.get`,
so each is an `Option`.  A present-but-empty `conditions` list is falsy in
Python, hence the `Option (List _)` shape. -/
structure PyTransition where
  event : Option String
  conditions : Option (List PyCondition)
  next : Option String
deriving DecidableEq, Repr

/-- State dict: `name` is accessed as `state['name']` only on states inside a
states collection (we model it as always present), `type` is read both as
`state['type']` (utils.py, can raise) and `state.get('type')` (mermaid.py),
so it is an `Option`; `transitions` is read as `.get('transitions', [])`, so a
missing key behaves as the empty list. -/
structure PyState where
  name : String
  type : Option String
  transitions : List PyTransition
deriving DecidableEq, Repr

/-- Raw flow definition: the only key the code reads is `states`
(`flow_definition['states']` raising `KeyError` when missing, or the guard
`'states' not in flow_definition`). -/
structure FlowDefinition where
  states : Option (List PyState)
deriving DecidableEq, Repr

/-- TriggerType enum from trigger_type.py. -/
inductive TriggerType
  | INCOMING_MESSAGE
  | INCOMING_CALL
  | REST_API
  | SUBFLOW
deriving DecidableEq, Repr

/-- Value of each TriggerType enum member. -/
def TriggerType.value : TriggerType → String
  | .INCOMING_MESSAGE => "incomingMessage"
  | .INCOMING_CALL => "incomingCall"
  | .REST_API => "incomingRequest"
  | .SUBFLOW => "incomingParent"

/-- Python `str(x)` on an optional string: `None` prints as "None".  Used where
an f-string interpolates a value obtained from `.get`. -/
def pyStr (o : Option String) : String :=
  match o with
  | some s => s
  | none => "None"

/-- Truthiness of `transition.get("conditions")`: `None` and `[]` are falsy. -/
def truthyConditions (o : Option (List PyCondition)) : Bool :=
  match o with
  | some (_ :: _) => true
  | _ => false

/-- Truthiness of an optional string (`None` and `""` are falsy). -/
def truthyStr (o : Option String) : Bool :=
  match o with
  | some s => s != ""
  | none => false

/-- Lookup in a Python dict built from a list of key/value pairs: later
entries overwrite earlier ones, so the last binding wins. -/
def dictGet {α : Type} (m : List (String × α)) (k : String) : Option α :=
  (m.reverse.find? (fun p => p.1 == k)).map Prod.snd

/-- Membership test `k in d` for the same dict model. -/
def dictContains {α : Type} (m : List (String × α)) (k : String) : Bool :=
  (dictGet m k).isSome

/-- Lookup with default, modelling `d.get(k, default)`. -/
def dictGetD (m : List (String × String)) (k d : String) : String :=
  (dictGet m k).getD d

/-- The mapping `{state['name']: state for state in flow_definition['states']}`. -/
def mkStateMap (states : List PyState) : List (String × PyState) :=
  states.map (fun s => (s.name, s))

/-- Distinct keys of the dict model (a Python dict has unique keys). -/
def dictKeys {α : Type} (m : List (String × α)) : List String :=
  (m.map Prod.fst).dedup

/-- Number of distinct keys, i.e. `len(state_map)`. -/
def numKeys {α : Type} (m : List (String × α)) : Nat :=
  (dictKeys m).length

/-- Number of distinct state names not yet visited; the decreasing measure of
the Python recursion. -/
def unvisitedCount {α : Type} (m : List (String × α)) (visited : List String) : Nat :=
  ((dictKeys m).filter (fun k => !visited.contains k)).length

/-! ## Entry resolver (utils.get_first_state) -/

/-- The loop `for state in flow_definition['states']: if state['type'] == 'trigger':
trigger_state = state; break`.  Reading `state['type']` on a state lacking the
key raises `KeyError`; reaching the end of the loop leaves the synthetic
default `{"transitions": {}}`, modelled by `none`. -/
def findTriggerState : List PyState → Except String (Option PyState)
  | [] => Except.ok none
  | s :: rest =>
    match s.type with
    | none => Except.error "KeyError: type"
    | some t => if t == "trigger" then Except.ok (some s) else findTriggerState rest

/-- The synthetic default trigger state `{"transitions": {}}`: iterating its
(empty) transitions yields nothing; name and type are never read.  -/
def syntheticTriggerState : PyState :=
  { name := "", type := none, transitions := [] }

/-- The loop `for transition in trigger_state.get('transitions', []): ...` that
returns the `next` of the first transition whose `event` equals the trigger
value, stopping at the first match (`break`). -/
def firstTransitionTarget : List PyTransition → String → Option String
  | [], _ => none
  | t :: rest, v => if t.event == some v then t.next else firstTransitionTarget rest v

/-- utils.get_first_state: locate the trigger state, then return the `next` of
its first transition matching the trigger type's value.  `flow_definition['states']`
raises `KeyError` when the key is missing. -/
def get_first_state (flow_definition : FlowDefinition) (trigger_type : TriggerType) :
    Except String (Option String) :=
  match flow_definition.states with
  | none => Except.error "KeyError: states"
  | some states =>
    match findTriggerState states with
    | Except.error e => Except.error e
    | Except.ok triggerOpt =>
      let ts :=
        match triggerOpt with
        | some s => s.transitions
        | none => syntheticTriggerState.transitions
      Except.ok (firstTransitionTarget ts trigger_type.value)

/-! ## Diagram renderer (mermaid.generate_mermaid_graph) -/

/-- Mutable state threaded through mermaid.py's `traverse_state`: the
`visited_states` set (kept as a list in first-visit order; only membership is
used), the accumulated `graph_parts` lines, and the running `link_index`
(initialised to -1 and incremented before each use). -/
structure RenderState where
  visited : List String
  parts : List String
  linkIndex : Int
deriving DecidableEq, Repr

/-- Body of the transition loop in mermaid.py up to (and not including) the
recursive call: increment `link_index`, emit the edge line — labelled by the
first condition's friendly name when `conditions` is truthy, unlabelled when
the event is exactly "next", labelled by the raw event otherwise — and, only
in the event-labelled branch, append the red `linkStyle` line when the event
is "failed" or "timeout". -/
def emitEdge (st : RenderState) (stateName : String) (t : PyTransition)
    (nextState : String) : RenderState :=
  let idx := st.linkIndex + 1
  match t.conditions with
  | some (c :: _) =>
    { visited := st.visited,
      parts := st.parts ++
        ["    " ++ stateName ++ " --> |" ++ pyStr c.friendly_name ++ "| " ++ nextState],
      linkIndex := idx }
  | _ =>
    let base :=
      if t.event != some "next" then
        st.parts ++ ["    " ++ stateName ++ " --> |" ++ pyStr t.event ++ "| " ++ nextState]
      else
        st.parts ++ ["    " ++ stateName ++ " --> " ++ nextState]
    let withStyle :=
      if t.event == some "failed" || t.event == some "timeout" then
        base ++ ["    linkStyle " ++ toString idx ++ " stroke:red"]
      else base
    { visited := st.visited, parts := withStyle, linkIndex := idx }

/-- Lines appended by `emitEdge`, as a function of the pre-call link index:
a characterisation used by the proofs, shown equal to what `emitEdge`
appends. -/
def edgeLines (idx : Int) (stateName : String) (t : PyTransition)
    (ns : String) : List String :=
  match t.conditions with
  | some (c :: _) =>
    ["    " ++ stateName ++ " --> |" ++ pyStr c.friendly_name ++ "| " ++ ns]
  | _ =>
    (if t.event != some "next" then
      ["    " ++ stateName ++ " --> |" ++ pyStr t.event ++ "| " ++ ns]
     else
      ["    " ++ stateName ++ " --> " ++ ns]) ++
    (if t.event == some "failed" || t.event == some "timeout" then
      ["    linkStyle " ++ toString (idx + 1) ++ " stroke:red"]
     else [])

/-- Node-declaration line for a newly visited state: decision shape (braces)
for type "split-based-on", rounded shape (parentheses) otherwise; the label is
the friendly name when present, else the raw identifier. -/
def nodeLine (friendly : List (String × String)) (stateName : String)
    (state : PyState) : String :=
  let friendlyName := dictGetD friendly stateName stateName
  if state.type == some "split-based-on" then
    "    " ++ stateName ++ "\x7b" ++ friendlyName ++ "\x7d"
  else
    "    " ++ stateName ++ "(" ++ friendlyName ++ ")"

/-- mermaid.py's recursive `traverse_state`, with explicit fuel bounding the
recursion depth (the Python code has no fuel; fuel sufficiency is proven
separately).  Returns on an already-visited or absent state; otherwise marks
the state visited, emits its node line, and folds over its transitions,
emitting an edge and recursing for every truthy `next`. -/
def traverse_state (sm : List (String × PyState)) (friendly : List (String × String)) :
    Nat → RenderState → String → RenderState
  | 0, st, _ => st
  | fuel + 1, st, stateName =>
    if st.visited.contains stateName then st
    else
      match dictGet sm stateName with
      | none => st
      | some state =>
        let st1 : RenderState :=
          { visited := st.visited ++ [stateName],
            parts := st.parts ++ [nodeLine friendly stateName state],
            linkIndex := st.linkIndex }
        state.transitions.foldl
          (fun acc t =>
            match t.next with
            | some ns =>
              if ns != "" then
                traverse_state sm friendly fuel (emitEdge acc stateName t ns) ns
              else acc
            | none => acc)
          st1

/-- mermaid.generate_mermaid_graph.  The `states_file` parameter carries the
outcome of the optional friendly-names file: `none` = falsy path (no file),
`some none` = file content is invalid JSON (`json.load` raises, uncaught),
`some (some m)` = parsed mapping.  `flow_definition['states']` raises
`KeyError` when the key is absent.  On success, the returned lines are the
fenced block opened by the two header lines and closed by the closing fence. -/
def generate_mermaid_graph (initial_state : Option String)
    (flow_definition : FlowDefinition)
    (states_file : Option (Option (List (String × String)))) :
    Except String (List String) :=
  match states_file with
  | some none => Except.error "json.JSONDecodeError"
  | _ =>
    let friendly_states : List (String × String) :=
      match states_file with
      | some (some m) => m
      | _ => []
    match flow_definition.states with
    | none => Except.error "KeyError: states"
    | some states =>
      let state_map := mkStateMap states
      let st0 : RenderState := { visited := [], parts := ["```mermaid", "flowchart TD"], linkIndex := -1 }
      let stF :=
        match initial_state with
        | some s => traverse_state state_map friendly_states (numKeys state_map + 1) st0 s
        | none => st0
      Except.ok (stF.parts ++ ["```"])

/-! ## Reachability extractor (output_states.get_states_by_trigger_type) -/

/-- output_states.py's recursive `traverse_state`, collecting `all_states` in
first-visit order (the Python dict maps each name to itself; we keep the key
list).  Same shape as the renderer traversal, with explicit fuel. -/
def traverse_collect (sm : List (String × PyState)) :
    Nat → List String → String → List String
  | 0, all_states, _ => all_states
  | fuel + 1, all_states, state_name =>
    if all_states.contains state_name then all_states
    else
      match dictGet sm state_name with
      | none => all_states
      | some state =>
        let all1 := all_states ++ [state_name]
        state.transitions.foldl
          (fun acc t =>
            match t.next with
            | some ns =>
              if ns != "" then traverse_collect sm fuel acc ns else acc
            | none => acc)
          all1

/-- output_states.get_states_by_trigger_type: a missing `states` key is logged
and yields the empty result (no exception); a falsy first state (`None` or
`""`, after the printed message) also yields the empty result; otherwise the
traversal runs from the first state.  `get_first_state` may still raise
(`KeyError` on a state lacking `type`), which propagates. -/
def get_states_by_trigger_type (flow_definition : FlowDefinition)
    (trigger_type : TriggerType) : Except String (List String) :=
  match flow_definition.states with
  | none => Except.ok []
  | some states =>
    match get_first_state flow_definition trigger_type with
    | Except.error e => Except.error e
    | Except.ok initial =>
      if truthyStr initial then
        match initial with
        | some i =>
          Except.ok (traverse_collect (mkStateMap states) (numKeys (mkStateMap states) + 1) [] i)
        | none => Except.ok []
      else Except.ok []

/-- Reachability in the state map: `ReachTo sm a c` holds when `c` can be
reached from `a` by following transitions with truthy `next` targets, where
every state on the way (including the endpoints) is present in the map. -/
inductive ReachTo (sm : List (String × PyState)) : String → String → Prop
  | refl (a : String) (st : PyState) (h : dictGet sm a = some st) : ReachTo sm a a
  | step (a b c : String) (hab : ReachTo sm a b) (st : PyState)
      (hb : dictGet sm b = some st) (t : PyTransition) (ht : t ∈ st.transitions)
      (hn : t.next = some c) (hne : c ≠ "") (stc : PyState)
      (hc : dictGet sm c = some stc) : ReachTo sm a c

/-- Closure property of a traversal result relative to the visited list it
started from: every state the call newly visited has all its (truthy,
present-in-map) successors in the result. -/
def SuccClosed (sm : List (String × PyState)) (base res : List String) : Prop :=
  ∀ b, b ∈ res → b ∉ base → ∀ st, dictGet sm b = some st →
    ∀ t ∈ st.transitions, ∀ c, t.next = some c → c ≠ "" →
      ∀ stc, dictGet sm c = some stc → c ∈ res

/-! ## Section updater (update_doc.update_mermaid_graph) -/

/-- Literal match of `pat` at the start of a text. -/
def beginsWith : List Char → List Char → Bool
  | [], _ => true
  | _ :: _, [] => false
  | c :: p, d :: s => c == d && beginsWith p s

/-- Split a character list at the first occurrence of `pat`, returning the
text before the occurrence and the text after it.  `none` when `pat` does not
occur.  (Used only with nonempty patterns.) -/
def splitAtFirst (pat : List Char) : List Char → Option (List Char × List Char)
  | [] => none
  | c :: rest =>
    if beginsWith pat (c :: rest) then some ([], (c :: rest).drop pat.length)
    else
      match splitAtFirst pat rest with
      | some (b, a) => some (c :: b, a)
      | none => none

/-- Substring occurrence test, via `splitAtFirst`. -/
def occursIn (pat s : List Char) : Bool :=
  (splitAtFirst pat s).isSome

/-- Start marker `<!-- {section_identifier}-start -->`. -/
def startTag (sectionId : String) : List Char :=
  "<!-- ".toList ++ sectionId.toList ++ "-start -->".toList

/-- End marker `<!-- {section_identifier}-end -->`. -/
def endTag (sectionId : String) : List Char :=
  "<!-- ".toList ++ sectionId.toList ++ "-end -->".toList

/-- Semantics of `re.sub(start + r"\s*(.*?)\s*" + end, repl, s, flags=DOTALL)`
specialised to this pattern shape.  Because `\s*(.*?)\s*` matches any text,
a match starts at the first occurrence of the start tag followed (anywhere
later) by the end tag, and — as the lazy `(.*?)` grows from the shortest
candidate and the end tag begins with the non-whitespace `<` — the match ends
at the first occurrence of the end tag after the start tag.  `re.sub`
replaces every such non-overlapping match, continuing after the replaced
region; `fuel` bounds the number of scanning steps (the content length
suffices, proven separately). -/
def reSubFuel (sTag eTag repl : List Char) : Nat → List Char → List Char
  | 0, s => s
  | fuel + 1, s =>
    match splitAtFirst sTag s with
    | none => s
    | some (b, afterStart) =>
      match splitAtFirst eTag afterStart with
      | none => s
      | some (_, afterEnd) => b ++ repl ++ reSubFuel sTag eTag repl fuel afterEnd

/-- Total wrapper for `re.sub` on this pattern: a fuel of length + 1 always
suffices. -/
def re_sub (sTag eTag repl s : List Char) : List Char :=
  reSubFuel sTag eTag repl (s.length + 1) s

/-- Outcome of update_doc.update_mermaid_graph: the content written back to
the file, the caught-and-reported missing-file case, or the
template-processing path of `re.sub` that this embedding leaves abstract
(see `update_mermaid_graph`). -/
inductive UpdateResult
  | wrote (content : List Char)
  | reportedMissing
  | templateDependent
deriving DecidableEq, Repr

/-- update_doc.update_mermaid_graph.  File I/O is modelled by passing the
document content (`none` = the file does not exist, making `open` raise
`FileNotFoundError`, which the function catches and reports).  The
replacement string `start_tag + "\n" + new_graph + "\n" + end_tag` is a
`re.sub` replacement template.  When it contains no backslash, template
processing is the identity and the text is spliced literally, which is the
case modelled concretely here.  When it does contain a backslash — possible
only through `new_graph` or `section_identifier`, the fixed tag text has
none — `re.sub`'s template machinery takes over: group references such as
`\1` or `\g<1>` are substituted with captured text, and an invalid escape
raises `re.error` even when the document contains no match at all.  That
path is recorded abstractly as `templateDependent`; its details are outside
this embedding, and the theorems about this function carry a backslash-free
hypothesis accordingly. -/
def update_mermaid_graph (fileContent : Option (List Char)) (new_graph : String)
    (section_identifier : String) : UpdateResult :=
  match fileContent with
  | none => UpdateResult.reportedMissing
  | some content =>
    let sTag := startTag section_identifier
    let eTag := endTag section_identifier
    let repl := sTag ++ '\n' :: (new_graph.toList ++ '\n' :: eTag)
    if repl.contains '\\' then UpdateResult.templateDependent
    else UpdateResult.wrote (re_sub sTag eTag repl content)

/-! ## Fixtures used by counterexamples -/

/-- Flow used by the C1 counterexample: a transition that carries a condition
while its underlying event is "failed". -/
def c1Flow : FlowDefinition :=
  { states := some
      [ { name := "A", type := some "say-play",
          transitions :=
            [ { event := some "failed",
                conditions := some [ { friendly_name := some "Yes" } ],
                next := some "B" } ] },
        { name := "B", type := none, transitions := [] } ] }

/-- Output of the renderer on `c1Flow`. -/
def c1Output : List String :=
  ["```mermaid", "flowchart TD", "    A(A)", "    A --> |Yes| B", "    B(B)", "```"]

/-- Document with two marker pairs for tag "diagram", used by the C4
counterexample. -/
def c4Doc : List Char :=
  ("A\n<!-- diagram-start -->\nold1\n<!-- diagram-end -->\nB\n" ++
   "<!-- diagram-start -->\nold2\n<!-- diagram-end -->\nC").toList

/-- What the code actually produces on `c4Doc` (both regions replaced). -/
def c4BothReplaced : List Char :=
  ("A\n<!-- diagram-start -->\nG\n<!-- diagram-end -->\nB\n" ++
   "<!-- diagram-start -->\nG\n<!-- diagram-end -->\nC").toList

/-- What the claim says should be produced on `c4Doc` (only the first region
replaced, the second left byte-for-byte identical). -/
def c4FirstOnly : List Char :=
  ("A\n<!-- diagram-start -->\nG\n<!-- diagram-end -->\nB\n" ++
   "<!-- diagram-start -->\nold2\n<!-- diagram-end -->\nC").toList

/-- Two-state cyclic graph (A -> B -> A) used by the C5 witness. -/
def c5States : List PyState :=
  [ { name := "A", type := some "say-play",
      transitions := [ { event := some "next", conditions := none, next := some "B" } ] },
    { name := "B", type := some "say-play",
      transitions := [ { event := some "failed", conditions := none, next := some "A" } ] } ]

/-! # Theorems -/

/-! ## Generic fold lemmas used by the traversal proofs -/

theorem foldl_preserve {α β : Type} (f : β → α → β) (P : β → Prop) :
    ∀ (l : List α) (init : β), (∀ b a, a ∈ l → P b → P (f b a)) → P init →
      P (l.foldl f init) := by
  intro l
  induction l with
  | nil => intro init _ h0; exact h0
  | cons a rest ih =>
    intro init hstep h0
    exact ih (f init a)
      (fun b x hx hb => hstep b x (by simp [hx]) hb)
      (hstep init a (by simp) h0)

theorem foldl_congr_preserve {α β : Type} (f g : β → α → β) (P : β → Prop) :
    ∀ (l : List α) (init : β),
      (∀ b a, a ∈ l → P b → f b a = g b a ∧ P (f b a)) → P init →
      l.foldl f init = l.foldl g init ∧ P (l.foldl f init) := by
  intro l
  induction l with
  | nil => intro init _ h0; exact ⟨rfl, h0⟩
  | cons a rest ih =>
    intro init hstep h0
    have h1 := hstep init a (by simp) h0
    have h2 := ih (f init a)
      (fun b x hx hb => hstep b x (by simp [hx]) hb) h1.2
    refine ⟨?_, h2.2⟩
    simp only [List.foldl_cons]
    rw [← h1.1]
    exact h2.1

theorem foldl_rel {α β γ : Type} (f : β → α → β) (g : γ → α → γ)
    (R : β → γ → Prop) :
    ∀ (l : List α) (b : β) (c : γ),
      (∀ b c a, a ∈ l → R b c → R (f b a) (g c a)) → R b c →
      R (l.foldl f b) (l.foldl g c) := by
  intro l
  induction l with
  | nil => intro b c _ h0; exact h0
  | cons a rest ih =>
    intro b c hstep h0
    exact ih (f b a) (g c a)
      (fun b' c' x hx hr => hstep b' c' x (by simp [hx]) hr)
      (hstep b c a (by simp) h0)

/-! ## Dict and visited-count lemmas -/

theorem dictGet_isSome_iff {α : Type} (m : List (String × α)) (k : String) :
    (dictGet m k).isSome = true ↔ k ∈ dictKeys m := by
  rw [dictGet, Option.isSome_map']
  constructor
  · intro h
    rw [List.find?_isSome] at h
    obtain ⟨p, hp, hpk⟩ := h
    rw [List.mem_reverse] at hp
    rw [beq_iff_eq] at hpk
    rw [dictKeys, List.mem_dedup]
    exact hpk ▸ List.mem_map_of_mem Prod.fst hp
  · intro h
    rw [dictKeys, List.mem_dedup, List.mem_map] at h
    obtain ⟨p, hp, hk⟩ := h
    rw [List.find?_isSome]
    exact ⟨p, List.mem_reverse.mpr hp, by simp [hk]⟩

theorem dictGet_mem_keys {α : Type} (m : List (String × α)) (k : String)
    (st : α) (h : dictGet m k = some st) : k ∈ dictKeys m := by
  rw [← dictGet_isSome_iff, h]
  rfl

theorem filter_length_mono {α : Type} (p q : α → Bool)
    (h : ∀ x, p x = true → q x = true) :
    ∀ l : List α, (l.filter p).length ≤ (l.filter q).length := by
  intro l
  induction l with
  | nil => simp
  | cons a rest ih =>
    cases hp : p a with
    | true =>
      have hq := h a hp
      simp only [List.filter_cons, hp, hq, if_true, List.length_cons]
      omega
    | false =>
      cases hq : q a with
      | true =>
        simp only [List.filter_cons, hp, hq, Bool.false_eq_true, if_false,
          if_true, List.length_cons]
        omega
      | false =>
        simp only [List.filter_cons, hp, hq, Bool.false_eq_true, if_false]
        exact ih

theorem filter_length_lt {α : Type} (p q : α → Bool)
    (h : ∀ x, p x = true → q x = true) (x : α) :
    ∀ l : List α, x ∈ l → p x = false → q x = true →
      (l.filter p).length < (l.filter q).length := by
  intro l
  induction l with
  | nil => intro hx; simp at hx
  | cons a rest ih =>
    intro hx hpx hqx
    rcases List.mem_cons.mp hx with rfl | hx'
    · simp only [List.filter_cons, hpx, hqx]
      simp only [Bool.false_eq_true, if_false, if_true, List.length_cons]
      exact Nat.lt_succ_of_le (filter_length_mono p q h rest)
    · cases hp : p a with
      | true =>
        have hq := h a hp
        simp only [List.filter_cons, hp, hq, if_true, List.length_cons]
        exact Nat.succ_lt_succ (ih hx' hpx hqx)
      | false =>
        cases hq : q a with
        | true =>
          simp only [List.filter_cons, hp, hq, Bool.false_eq_true, if_false,
            if_true, List.length_cons]
          exact Nat.lt_succ_of_lt (ih hx' hpx hqx)
        | false =>
          simp only [List.filter_cons, hp, hq, Bool.false_eq_true, if_false]
          exact ih hx' hpx hqx

theorem unvisitedCount_append_le {α : Type} (m : List (String × α))
    (v e : List String) : unvisitedCount m (v ++ e) ≤ unvisitedCount m v := by
  apply filter_length_mono
  intro x hx
  have hx' : x ∉ v ++ e := by simpa using hx
  have hv : x ∉ v := fun hm => hx' (List.mem_append_left e hm)
  simpa using hv

theorem unvisitedCount_visit_lt {α : Type} (m : List (String × α))
    (v : List String) (n : String) (st : α) (hget : dictGet m n = some st)
    (hnv : n ∉ v) :
    unvisitedCount m (v ++ [n]) < unvisitedCount m v := by
  refine filter_length_lt _ _ ?_ n (dictKeys m) (dictGet_mem_keys m n st hget) ?_ ?_
  · intro x hx
    have hx' : x ∉ v ++ [n] := by simpa using hx
    have hv : x ∉ v := fun hm => hx' (List.mem_append_left _ hm)
    simpa using hv
  · simp
  · simpa using hnv

theorem unvisitedCount_pos {α : Type} (m : List (String × α))
    (v : List String) (n : String) (st : α) (hget : dictGet m n = some st)
    (hnv : n ∉ v) : 0 < unvisitedCount m v := by
  have hmem : n ∈ (dictKeys m).filter (fun k => !v.contains k) := by
    rw [List.mem_filter]
    refine ⟨dictGet_mem_keys m n st hget, ?_⟩
    simpa using hnv
  exact List.length_pos_of_mem hmem

theorem unvisitedCount_le_numKeys {α : Type} (m : List (String × α))
    (v : List String) : unvisitedCount m v ≤ numKeys m := by
  simpa [unvisitedCount, numKeys] using
    List.length_filter_le (fun k => !v.contains k) (dictKeys m)

/-! ## Per-edge behaviour of the renderer -/

theorem emitEdge_visited (st : RenderState) (stateName : String)
    (t : PyTransition) (ns : String) :
    (emitEdge st stateName t ns).visited = st.visited := by
  rcases t with ⟨e, c, nx⟩
  match c with
  | none => simp [emitEdge]
  | some [] => simp [emitEdge]
  | some (c0 :: cs) => simp [emitEdge]

theorem emitEdge_linkIndex (st : RenderState) (stateName : String)
    (t : PyTransition) (ns : String) :
    (emitEdge st stateName t ns).linkIndex = st.linkIndex + 1 := by
  rcases t with ⟨e, c, nx⟩
  match c with
  | none => simp [emitEdge]
  | some [] => simp [emitEdge]
  | some (c0 :: cs) => simp [emitEdge]

theorem emitEdge_parts_eq (st : RenderState) (stateName : String)
    (t : PyTransition) (ns : String) :
    (emitEdge st stateName t ns).parts =
      st.parts ++ edgeLines st.linkIndex stateName t ns := by
  rcases t with ⟨e, c, nx⟩
  match c with
  | some (c0 :: cs) => simp [emitEdge, edgeLines]
  | none =>
    simp only [emitEdge, edgeLines]
    split <;> split <;> simp [List.append_assoc]
  | some [] =>
    simp only [emitEdge, edgeLines]
    split <;> split <;> simp [List.append_assoc]

theorem emitEdge_parts_extend (st : RenderState) (stateName : String)
    (t : PyTransition) (ns : String) :
    ∃ e, (emitEdge st stateName t ns).parts = st.parts ++ e :=
  ⟨_, emitEdge_parts_eq st stateName t ns⟩

/-! ## Visited dynamics of the traversals -/

theorem traverse_state_visited_eq (sm : List (String × PyState))
    (friendly : List (String × String)) :
    ∀ (fuel : Nat) (st : RenderState) (n : String),
      (traverse_state sm friendly fuel st n).visited =
        traverse_collect sm fuel st.visited n := by
  intro fuel
  induction fuel with
  | zero => intro st n; rfl
  | succ fuel ih =>
    intro st n
    by_cases hv : n ∈ st.visited
    · have hvc : st.visited.contains n = true := by simpa using hv
      simp [traverse_state, traverse_collect, hv, hvc]
    · have hvc : st.visited.contains n = false := by simpa using hv
      cases hget : dictGet sm n with
      | none => simp [traverse_state, traverse_collect, hv, hvc, hget]
      | some state =>
        simp only [traverse_state, traverse_collect, hvc, Bool.false_eq_true,
          if_false, hget]
        exact foldl_rel _ _
          (fun (b : RenderState) (c : List String) => b.visited = c)
          state.transitions _ _
          (fun b c t _ hr => by
            cases hn : t.next with
            | none => simpa using hr
            | some ns =>
              by_cases hne : (ns != "") = true
              · simp only [hn, hne, if_true]
                rw [ih, emitEdge_visited, hr]
              · simpa [hn, hne] using hr)
          rfl

theorem traverse_collect_extend (sm : List (String × PyState)) :
    ∀ (fuel : Nat) (v : List String) (n : String),
      ∃ e, traverse_collect sm fuel v n = v ++ e := by
  intro fuel
  induction fuel with
  | zero => intro v n; exact ⟨[], by simp [traverse_collect]⟩
  | succ fuel ih =>
    intro v n
    by_cases hv : n ∈ v
    · have hvc : v.contains n = true := by simpa using hv
      exact ⟨[], by simp [traverse_collect, hv, hvc]⟩
    · have hvc : v.contains n = false := by simpa using hv
      cases hget : dictGet sm n with
      | none => exact ⟨[], by simp [traverse_collect, hv, hvc, hget]⟩
      | some state =>
        simp only [traverse_collect, hvc, Bool.false_eq_true, if_false, hget]
        refine foldl_preserve _ (fun x => ∃ e, x = v ++ e) state.transitions
          (v ++ [n]) ?_ ⟨[n], rfl⟩
        intro b t _ hb
        cases hn : t.next with
        | none => simpa using hb
        | some ns =>
          by_cases hne : (ns != "") = true
          · simp only [hn, hne, if_true]
            obtain ⟨e1, he1⟩ := hb
            obtain ⟨e2, he2⟩ := ih b ns
            exact ⟨e1 ++ e2, by rw [he2, he1, List.append_assoc]⟩
          · simpa [hn, hne] using hb

theorem traverse_collect_mem_of_mem (sm : List (String × PyState))
    (fuel : Nat) (v : List String) (n x : String) (hx : x ∈ v) :
    x ∈ traverse_collect sm fuel v n := by
  obtain ⟨e, he⟩ := traverse_collect_extend sm fuel v n
  rw [he]
  exact List.mem_append_left e hx

theorem traverse_collect_unvisited_le (sm : List (String × PyState))
    (fuel : Nat) (v : List String) (n : String) :
    unvisitedCount sm (traverse_collect sm fuel v n) ≤ unvisitedCount sm v := by
  obtain ⟨e, he⟩ := traverse_collect_extend sm fuel v n
  rw [he]
  exact unvisitedCount_append_le sm v e

theorem traverse_collect_nodup (sm : List (String × PyState)) :
    ∀ (fuel : Nat) (v : List String) (n : String),
      v.Nodup → (traverse_collect sm fuel v n).Nodup := by
  intro fuel
  induction fuel with
  | zero => intro v n h; exact h
  | succ fuel ih =>
    intro v n hnd
    by_cases hv : n ∈ v
    · have hvc : v.contains n = true := by simpa using hv
      simpa [traverse_collect, hv, hvc] using hnd
    · have hvc : v.contains n = false := by simpa using hv
      cases hget : dictGet sm n with
      | none => simpa [traverse_collect, hv, hvc, hget] using hnd
      | some state =>
        simp only [traverse_collect, hvc, Bool.false_eq_true, if_false, hget]
        refine foldl_preserve _ (fun x => x.Nodup) state.transitions (v ++ [n]) ?_ ?_
        · intro b t _ hb
          cases hn : t.next with
          | none => simpa using hb
          | some ns =>
            by_cases hne : (ns != "") = true
            · simp only [hn, hne, if_true]
              exact ih b ns hb
            · simpa [hn, hne] using hb
        · have hnv : n ∉ v := by simpa using hv
          simp [List.nodup_append, hnd, hnv]

theorem traverse_state_unvisited_le (sm : List (String × PyState))
    (friendly : List (String × String)) (fuel : Nat) (st : RenderState)
    (n : String) :
    unvisitedCount sm (traverse_state sm friendly fuel st n).visited ≤
      unvisitedCount sm st.visited := by
  rw [traverse_state_visited_eq]
  exact traverse_collect_unvisited_le sm fuel st.visited n

/-! ## Fuel stability: any fuel above the number of distinct state names
gives the same result, which is the termination theorem for the unbounded
Python recursion -/

theorem traverse_collect_stable (sm : List (String × PyState)) :
    ∀ (u : Nat) (v : List String) (n : String) (f₁ f₂ : Nat),
      unvisitedCount sm v ≤ u → u < f₁ → u < f₂ →
      traverse_collect sm f₁ v n = traverse_collect sm f₂ v n := by
  intro u
  induction u with
  | zero =>
    intro v n f₁ f₂ hu h1 h2
    match f₁, f₂ with
    | a + 1, b + 1 =>
      by_cases hv : n ∈ v
      · have hvc : v.contains n = true := by simpa using hv
        simp [traverse_collect, hv, hvc]
      · have hvc : v.contains n = false := by simpa using hv
        cases hget : dictGet sm n with
        | none => simp [traverse_collect, hv, hvc, hget]
        | some state =>
          exfalso
          have := unvisitedCount_pos sm v n state hget hv
          omega
  | succ u ih =>
    intro v n f₁ f₂ hu h1 h2
    match f₁, f₂ with
    | a + 1, b + 1 =>
      by_cases hv : n ∈ v
      · have hvc : v.contains n = true := by simpa using hv
        simp [traverse_collect, hv, hvc]
      · have hvc : v.contains n = false := by simpa using hv
        cases hget : dictGet sm n with
        | none => simp [traverse_collect, hv, hvc, hget]
        | some state =>
          simp only [traverse_collect, hvc, Bool.false_eq_true, if_false, hget]
          have hlt : unvisitedCount sm (v ++ [n]) ≤ u := by
            have := unvisitedCount_visit_lt sm v n state hget hv
            omega
          refine (foldl_congr_preserve _ _
            (fun acc => unvisitedCount sm acc ≤ u)
            state.transitions (v ++ [n]) ?_ hlt).1
          intro acc t _ hacc
          cases hn : t.next with
          | none => exact ⟨by simp [hn], by simpa [hn] using hacc⟩
          | some ns =>
            by_cases hne : (ns != "") = true
            · have heq := ih acc ns a b hacc (by omega) (by omega)
              refine ⟨by simp [hn, hne, heq], ?_⟩
              simp only [hn, hne, if_true]
              exact le_trans (traverse_collect_unvisited_le sm a acc ns) hacc
            · exact ⟨by simp [hn, hne], by simpa [hn, hne] using hacc⟩

theorem traverse_state_stable (sm : List (String × PyState))
    (friendly : List (String × String)) :
    ∀ (u : Nat) (st : RenderState) (n : String) (f₁ f₂ : Nat),
      unvisitedCount sm st.visited ≤ u → u < f₁ → u < f₂ →
      traverse_state sm friendly f₁ st n = traverse_state sm friendly f₂ st n := by
  intro u
  induction u with
  | zero =>
    intro st n f₁ f₂ hu h1 h2
    match f₁, f₂ with
    | a + 1, b + 1 =>
      by_cases hv : n ∈ st.visited
      · have hvc : st.visited.contains n = true := by simpa using hv
        simp [traverse_state, hv, hvc]
      · have hvc : st.visited.contains n = false := by simpa using hv
        cases hget : dictGet sm n with
        | none => simp [traverse_state, hv, hvc, hget]
        | some state =>
          exfalso
          have := unvisitedCount_pos sm st.visited n state hget hv
          omega
  | succ u ih =>
    intro st n f₁ f₂ hu h1 h2
    match f₁, f₂ with
    | a + 1, b + 1 =>
      by_cases hv : n ∈ st.visited
      · have hvc : st.visited.contains n = true := by simpa using hv
        simp [traverse_state, hv, hvc]
      · have hvc : st.visited.contains n = false := by simpa using hv
        cases hget : dictGet sm n with
        | none => simp [traverse_state, hv, hvc, hget]
        | some state =>
          simp only [traverse_state, hvc, Bool.false_eq_true, if_false, hget]
          have hlt : unvisitedCount sm (st.visited ++ [n]) ≤ u := by
            have := unvisitedCount_visit_lt sm st.visited n state hget hv
            omega
          refine (foldl_congr_preserve _ _
            (fun acc => unvisitedCount sm acc.visited ≤ u)
            state.transitions _ ?_ hlt).1
          intro acc t _ hacc
          cases hn : t.next with
          | none => exact ⟨by simp [hn], by simpa [hn] using hacc⟩
          | some ns =>
            by_cases hne : (ns != "") = true
            · have hemit : unvisitedCount sm (emitEdge acc n t ns).visited ≤ u := by
                rw [emitEdge_visited]; exact hacc
              have heq := ih (emitEdge acc n t ns) ns a b hemit (by omega) (by omega)
              refine ⟨by simp [hn, hne, heq], ?_⟩
              simp only [hn, hne, if_true]
              exact le_trans (traverse_state_unvisited_le sm friendly a _ ns) hemit
            · exact ⟨by simp [hn, hne], by simpa [hn, hne] using hacc⟩

/-! ## Parts accumulation (renderer output is append-only) -/

theorem traverse_state_parts_extend (sm : List (String × PyState))
    (friendly : List (String × String)) :
    ∀ (fuel : Nat) (st : RenderState) (n : String),
      ∃ e, (traverse_state sm friendly fuel st n).parts = st.parts ++ e := by
  intro fuel
  induction fuel with
  | zero => intro st n; exact ⟨[], by simp [traverse_state]⟩
  | succ fuel ih =>
    intro st n
    by_cases hv : n ∈ st.visited
    · have hvc : st.visited.contains n = true := by simpa using hv
      exact ⟨[], by simp [traverse_state, hv, hvc]⟩
    · have hvc : st.visited.contains n = false := by simpa using hv
      cases hget : dictGet sm n with
      | none => exact ⟨[], by simp [traverse_state, hv, hvc, hget]⟩
      | some state =>
        simp only [traverse_state, hvc, Bool.false_eq_true, if_false, hget]
        refine foldl_preserve _ (fun (x : RenderState) => ∃ e, x.parts = st.parts ++ e)
          state.transitions _ ?_ ⟨[nodeLine friendly n state], rfl⟩
        intro b t _ hb
        cases hn : t.next with
        | none => simpa [hn] using hb
        | some ns =>
          by_cases hne : (ns != "") = true
          · simp only [hn, hne, if_true]
            obtain ⟨e1, he1⟩ := hb
            obtain ⟨e2, he2⟩ := ih (emitEdge b n t ns) ns
            rw [emitEdge_parts_eq, he1] at he2
            exact ⟨(e1 ++ edgeLines b.linkIndex n t ns) ++ e2, by
              rw [he2]
              simp [List.append_assoc]⟩
          · simpa [hn, hne] using hb

/-! ## Reachability: the collected states are exactly the reachable ones -/

theorem reachTo_trans (sm : List (String × PyState)) (a b c : String)
    (hbc : ReachTo sm b c) : ReachTo sm a b → ReachTo sm a c := by
  induction hbc with
  | refl st h => exact fun hab => hab
  | step x y hxy st hy t ht hn hne stc hc ih =>
    exact fun hab => ReachTo.step a x y (ih hab) st hy t ht hn hne stc hc

theorem reachTo_src_mem (sm : List (String × PyState)) (a c : String)
    (h : ReachTo sm a c) : ∃ st, dictGet sm a = some st := by
  induction h with
  | refl st hst => exact ⟨st, hst⟩
  | step x y hxy st hy t ht hn hne stc hc ih => exact ih

theorem traverse_collect_sound (sm : List (String × PyState)) :
    ∀ (fuel : Nat) (v : List String) (n x : String),
      x ∈ traverse_collect sm fuel v n → x ∈ v ∨ ReachTo sm n x := by
  intro fuel
  induction fuel with
  | zero =>
    intro v n x hx
    exact Or.inl (by simpa [traverse_collect] using hx)
  | succ fuel ih =>
    intro v n x hx
    by_cases hv : n ∈ v
    · have hvc : v.contains n = true := by simpa using hv
      exact Or.inl (by simpa [traverse_collect, hv, hvc] using hx)
    · have hvc : v.contains n = false := by simpa using hv
      cases hget : dictGet sm n with
      | none => exact Or.inl (by simpa [traverse_collect, hv, hvc, hget] using hx)
      | some state =>
        simp only [traverse_collect, hvc, Bool.false_eq_true, if_false, hget] at hx
        refine foldl_preserve _
          (fun (acc : List String) => ∀ y ∈ acc, y ∈ v ∨ ReachTo sm n y)
          state.transitions (v ++ [n]) ?_ ?_ x hx
        · intro b t ht hb y hy
          cases hn : t.next with
          | none => exact hb y (by simpa [hn] using hy)
          | some ns =>
            by_cases hne : (ns != "") = true
            · simp only [hn, hne, if_true] at hy
              rcases ih b ns y hy with h1 | h2
              · exact hb y h1
              · obtain ⟨stns, hstns⟩ := reachTo_src_mem sm ns y h2
                have hne' : ns ≠ "" := by simpa using hne
                have hstep : ReachTo sm n ns :=
                  ReachTo.step n n ns (ReachTo.refl n state hget) state hget
                    t ht hn hne' stns hstns
                exact Or.inr (reachTo_trans sm n ns y h2 hstep)
            · exact hb y (by simpa [hn, hne] using hy)
        · intro y hy
          rcases List.mem_append.mp hy with h1 | h1
          · exact Or.inl h1
          · have : y = n := by simpa using h1
            subst this
            exact Or.inr (ReachTo.refl y state hget)

theorem traverse_collect_closed (sm : List (String × PyState)) :
    ∀ (u f : Nat) (v : List String) (n : String),
      unvisitedCount sm v ≤ u → u < f →
      (∀ stn, dictGet sm n = some stn → n ∈ traverse_collect sm f v n) ∧
      SuccClosed sm v (traverse_collect sm f v n) := by
  intro u
  induction u with
  | zero =>
    intro f v n hu hf
    match f with
    | a + 1 =>
      by_cases hv : n ∈ v
      · have hvc : v.contains n = true := by simpa using hv
        constructor
        · intro stn hstn
          simp [traverse_collect, hv, hvc]
        · intro b hb hnb
          have hb' : b ∈ v := by simpa [traverse_collect, hv, hvc] using hb
          exact absurd hb' hnb
      · have hvc : v.contains n = false := by simpa using hv
        cases hget : dictGet sm n with
        | none =>
          constructor
          · intro stn hstn
            simp at hstn
          · intro b hb hnb
            have hb' : b ∈ v := by simpa [traverse_collect, hv, hvc, hget] using hb
            exact absurd hb' hnb
        | some state =>
          exfalso
          have := unvisitedCount_pos sm v n state hget hv
          omega
  | succ u ih =>
    intro f v n hu hf
    match f with
    | a + 1 =>
      by_cases hv : n ∈ v
      · have hvc : v.contains n = true := by simpa using hv
        constructor
        · intro stn hstn
          simp [traverse_collect, hv, hvc]
        · intro b hb hnb
          have hb' : b ∈ v := by simpa [traverse_collect, hv, hvc] using hb
          exact absurd hb' hnb
      · have hvc : v.contains n = false := by simpa using hv
        cases hget : dictGet sm n with
        | none =>
          constructor
          · intro stn hstn
            simp at hstn
          · intro b hb hnb
            have hb' : b ∈ v := by simpa [traverse_collect, hv, hvc, hget] using hb
            exact absurd hb' hnb
        | some state =>
          have ha : u < a := by omega
          have hlt : unvisitedCount sm (v ++ [n]) ≤ u := by
            have := unvisitedCount_visit_lt sm v n state hget hv
            omega
          have key : ∀ (ts : List PyTransition) (acc : List String),
              (∃ e0, acc = (v ++ [n]) ++ e0) →
              unvisitedCount sm acc ≤ u →
              SuccClosed sm (v ++ [n]) acc →
              (∃ e, List.foldl (fun acc t =>
                  match t.next with
                  | some ns => if ns != "" then traverse_collect sm a acc ns else acc
                  | none => acc) acc ts = acc ++ e) ∧
              SuccClosed sm (v ++ [n]) (List.foldl (fun acc t =>
                  match t.next with
                  | some ns => if ns != "" then traverse_collect sm a acc ns else acc
                  | none => acc) acc ts) ∧
              (∀ t ∈ ts, ∀ c, t.next = some c → c ≠ "" →
                ∀ stc, dictGet sm c = some stc →
                  c ∈ List.foldl (fun acc t =>
                    match t.next with
                    | some ns => if ns != "" then traverse_collect sm a acc ns else acc
                    | none => acc) acc ts) := by
            intro ts
            induction ts with
            | nil =>
              intro acc hext hcount hclosed
              exact ⟨⟨[], by simp⟩, hclosed, by intro t ht; simp at ht⟩
            | cons t rest ihts =>
              intro acc hext hcount hclosed
              cases hn : t.next with
              | none =>
                have hred : (List.foldl (fun acc t =>
                    match t.next with
                    | some ns => if ns != "" then traverse_collect sm a acc ns else acc
                    | none => acc) acc (t :: rest)) = (List.foldl (fun acc t =>
                    match t.next with
                    | some ns => if ns != "" then traverse_collect sm a acc ns else acc
                    | none => acc) acc rest) := by
                  rw [List.foldl_cons]
                  congr 1
                  simp [hn]
                rw [hred]
                obtain ⟨hE, hC, hP⟩ := ihts acc hext hcount hclosed
                refine ⟨hE, hC, ?_⟩
                intro t' ht' c hc hcne stc hstc
                rcases List.mem_cons.mp ht' with rfl | ht''
                · rw [hn] at hc; cases hc
                · exact hP t' ht'' c hc hcne stc hstc
              | some ns =>
                by_cases hne : (ns != "") = true
                · have hred : (List.foldl (fun acc t =>
                      match t.next with
                      | some ns => if ns != "" then traverse_collect sm a acc ns else acc
                      | none => acc) acc (t :: rest)) = (List.foldl (fun acc t =>
                      match t.next with
                      | some ns => if ns != "" then traverse_collect sm a acc ns else acc
                      | none => acc) (traverse_collect sm a acc ns) rest) := by
                    rw [List.foldl_cons]
                    congr 1
                    simp [hn, hne]
                  rw [hred]
                  have hsub := ih a acc ns hcount ha
                  obtain ⟨eS, heS⟩ := traverse_collect_extend sm a acc ns
                  have hext1 : ∃ e0, traverse_collect sm a acc ns = (v ++ [n]) ++ e0 := by
                    obtain ⟨e0, he0⟩ := hext
                    exact ⟨e0 ++ eS, by rw [heS, he0, List.append_assoc]⟩
                  have hcount1 : unvisitedCount sm (traverse_collect sm a acc ns) ≤ u :=
                    le_trans (traverse_collect_unvisited_le sm a acc ns) hcount
                  have hclosed1 : SuccClosed sm (v ++ [n]) (traverse_collect sm a acc ns) := by
                    intro b hb hnb st' hst' t' ht' c hc hcne stc hstc
                    by_cases hbacc : b ∈ acc
                    · have hcacc := hclosed b hbacc hnb st' hst' t' ht' c hc hcne stc hstc
                      rw [heS]
                      exact List.mem_append_left eS hcacc
                    · exact hsub.2 b hb hbacc st' hst' t' ht' c hc hcne stc hstc
                  obtain ⟨hE, hC, hP⟩ := ihts (traverse_collect sm a acc ns) hext1 hcount1 hclosed1
                  refine ⟨?_, hC, ?_⟩
                  · obtain ⟨e, he⟩ := hE
                    exact ⟨eS ++ e, by rw [he, heS, List.append_assoc]⟩
                  · intro t' ht' c hc hcne stc hstc
                    rcases List.mem_cons.mp ht' with rfl | ht''
                    · rw [hn] at hc
                      have hceq : ns = c := Option.some.inj hc
                      subst hceq
                      have hcmem : ns ∈ traverse_collect sm a acc ns := hsub.1 stc hstc
                      obtain ⟨e, he⟩ := hE
                      rw [he]
                      exact List.mem_append_left e hcmem
                    · exact hP t' ht'' c hc hcne stc hstc
                · have hns : ns = "" := by simpa using hne
                  have hred : (List.foldl (fun acc t =>
                      match t.next with
                      | some ns => if ns != "" then traverse_collect sm a acc ns else acc
                      | none => acc) acc (t :: rest)) = (List.foldl (fun acc t =>
                      match t.next with
                      | some ns => if ns != "" then traverse_collect sm a acc ns else acc
                      | none => acc) acc rest) := by
                    rw [List.foldl_cons]
                    congr 1
                    simp [hn, hne]
                  rw [hred]
                  obtain ⟨hE, hC, hP⟩ := ihts acc hext hcount hclosed
                  refine ⟨hE, hC, ?_⟩
                  intro t' ht' c hc hcne stc hstc
                  rcases List.mem_cons.mp ht' with rfl | ht''
                  · rw [hn] at hc
                    cases hc
                    exact absurd hns hcne
                  · exact hP t' ht'' c hc hcne stc hstc
          have hclosedInit : SuccClosed sm (v ++ [n]) (v ++ [n]) := by
            intro b hb hnb
            exact absurd hb hnb
          obtain ⟨hE, hC, hP⟩ := key state.transitions (v ++ [n])
            ⟨[], by simp⟩ hlt hclosedInit
          constructor
          · intro stn hstn
            simp only [traverse_collect, hvc, Bool.false_eq_true, if_false, hget]
            obtain ⟨e, he⟩ := hE
            rw [he]
            exact List.mem_append_left e (List.mem_append_right v (by simp))
          · simp only [traverse_collect, hvc, Bool.false_eq_true, if_false, hget]
            intro b hb hnb st' hst' t' ht' c hc hcne stc hstc
            by_cases hbn : b = n
            · subst hbn
              have hsteq : st' = state := by
                rw [hget] at hst'
                exact (Option.some.inj hst').symm
              subst hsteq
              exact hP t' ht' c hc hcne stc hstc
            · have hnall : b ∉ v ++ [n] := by
                intro hmem
                rcases List.mem_append.mp hmem with h1 | h1
                · exact hnb h1
                · exact hbn (by simpa using h1)
              exact hC b hb hnall st' hst' t' ht' c hc hcne stc hstc

theorem traverse_collect_complete (sm : List (String × PyState))
    (f : Nat) (hf : numKeys sm < f) (entry x : String)
    (hreach : ReachTo sm entry x) :
    x ∈ traverse_collect sm f [] entry := by
  induction hreach with
  | refl st hst =>
    exact (traverse_collect_closed sm (numKeys sm) f [] _
      (unvisitedCount_le_numKeys sm []) hf).1 st hst
  | step x y hxy st hy t ht hn hne stc hc ih =>
    exact (traverse_collect_closed sm (numKeys sm) f [] _
      (unvisitedCount_le_numKeys sm []) hf).2 x ih (by simp) st hy t ht y hn hne stc hc

/-! ## Entry-resolver lemmas and claims C6, C10 -/

theorem findTriggerState_eq_find? (states : List PyState)
    (h : ∀ s ∈ states, s.type ≠ none) :
    findTriggerState states = Except.ok (states.find? (fun s => s.type == some "trigger")) := by
  induction states with
  | nil => rfl
  | cons s rest ih =>
    have hs : s.type ≠ none := h s (by simp)
    match hty : s.type with
    | none => exact absurd hty hs
    | some t =>
      by_cases ht : t = "trigger"
      · subst ht
        simp [findTriggerState, hty, List.find?_cons, hty]
      · have hrest := ih (fun x hx => h x (by simp [hx]))
        simp [findTriggerState, hty, ht, List.find?_cons, hrest]

theorem firstTransitionTarget_eq_find? (ts : List PyTransition) (v : String) :
    firstTransitionTarget ts v = (ts.find? (fun t => t.event == some v)).bind PyTransition.next := by
  induction ts with
  | nil => rfl
  | cons t rest ih =>
    by_cases he : t.event == some v
    · simp [firstTransitionTarget, he, List.find?_cons, Option.bind]
    · simp [firstTransitionTarget, he, List.find?_cons, ih]

/-- C6: entry resolution picks the first state (in definition order) whose type
is "trigger" (the synthetic empty trigger state when none exists), then returns
the `next` of the first of its transitions (in order) whose event equals the
trigger type's value; with no matching transition the result is `none`, not an
error.  Hypothesis: every state carries a `type` key, so the `KeyError` branch
is not taken. -/
theorem C6_entry_resolution (states : List PyState) (tt : TriggerType)
    (h : ∀ s ∈ states, s.type ≠ none) :
    get_first_state { states := some states } tt =
      Except.ok
        ((((states.find? (fun s => s.type == some "trigger")).getD
            syntheticTriggerState).transitions.find?
              (fun t => t.event == some tt.value)).bind PyTransition.next) := by
  simp only [get_first_state, findTriggerState_eq_find? states h]
  cases hf : states.find? (fun s => s.type == some "trigger") with
  | none => simp [firstTransitionTarget_eq_find?, hf, syntheticTriggerState]
  | some s => simp [firstTransitionTarget_eq_find?, hf]

/-- Witness for C6: a concrete flow with a non-trigger state first, a trigger
state second, a non-matching transition before the matching one. -/
theorem C6_entry_resolution_witness :
    get_first_state
      { states := some
          [ { name := "other", type := some "say-play", transitions := [] },
            { name := "Trigger", type := some "trigger",
              transitions :=
                [ { event := some "incomingMessage", conditions := none, next := some "M" },
                  { event := some "incomingCall", conditions := none, next := some "A" } ] } ] }
      TriggerType.INCOMING_CALL = Except.ok (some "A") := by
  have h := C6_entry_resolution
    [ { name := "other", type := some "say-play", transitions := [] },
      { name := "Trigger", type := some "trigger",
        transitions :=
          [ { event := some "incomingMessage", conditions := none, next := some "M" },
            { event := some "incomingCall", conditions := none, next := some "A" } ] } ]
    TriggerType.INCOMING_CALL (by decide)
  rw [h]
  rfl

/-- C10: entry resolution raises no exception whenever the flow definition has
a `states` collection all of whose states carry a `type` key; under that
precondition the `KeyError` branches are unreachable. -/
theorem C10_entry_resolution_total (fd : FlowDefinition) (tt : TriggerType)
    (states : List PyState) (hs : fd.states = some states)
    (h : ∀ s ∈ states, s.type ≠ none) :
    ∃ r, get_first_state fd tt = Except.ok r := by
  rcases fd with ⟨os⟩
  cases hs
  simp only [get_first_state, findTriggerState_eq_find? states h]
  exact ⟨_, rfl⟩

/-- Witness for C10: a concrete well-typed flow (including a state that is
otherwise malformed: no transitions, unknown type) resolves without error. -/
theorem C10_entry_resolution_total_witness :
    ∃ r, get_first_state
      { states := some
          [ { name := "weird", type := some "unknown-kind", transitions := [] },
            { name := "Trigger", type := some "trigger", transitions := [] } ] }
      TriggerType.SUBFLOW = Except.ok r :=
  C10_entry_resolution_total _ TriggerType.SUBFLOW _ rfl (by decide)

/-! ## Claims C1 and C7: edge labelling and failure styling -/

/-- C1 counterexample: a condition-labelled edge whose underlying event is
"failed" is rendered with the condition label but receives no red `linkStyle`
line — the styling check only runs in the branch that did not use a condition
label, so the claim's "also receives the red styling line" is false. -/
theorem C1_counterexample :
    generate_mermaid_graph (some "A") c1Flow none = Except.ok c1Output ∧
      c1Output.contains "    linkStyle 0 stroke:red" = false := by
  constructor
  · rfl
  · rfl

/-- C1 amended: the red styling line is emitted immediately after the edge
line exactly when the transition carries no (truthy) condition list and its
raw event is "failed" or "timeout"; a condition-labelled edge is emitted as a
single line with no styling line, whatever its event. -/
theorem C1_failure_styling (st : RenderState) (stateName ns : String)
    (t : PyTransition) :
    (truthyConditions t.conditions = false →
      (t.event = some "failed" ∨ t.event = some "timeout") →
      (emitEdge st stateName t ns).parts =
        st.parts ++
          ["    " ++ stateName ++ " --> |" ++ pyStr t.event ++ "| " ++ ns,
           "    linkStyle " ++ toString (st.linkIndex + 1) ++ " stroke:red"]) ∧
    (∀ c cs, t.conditions = some (c :: cs) →
      (emitEdge st stateName t ns).parts =
        st.parts ++
          ["    " ++ stateName ++ " --> |" ++ pyStr c.friendly_name ++ "| " ++ ns]) := by
  constructor
  · intro hcond hev
    match hc : t.conditions with
    | some (c :: _) => rw [hc] at hcond; simp [truthyConditions] at hcond
    | some [] =>
      rcases hev with hev | hev <;>
        simp [emitEdge, hc, hev, pyStr]
    | none =>
      rcases hev with hev | hev <;>
        simp [emitEdge, hc, hev, pyStr]
  · intro c cs hc
    simp [emitEdge, hc]

/-- Witness for C1's amended theorem: both branches evaluated at concrete
transitions. -/
theorem C1_failure_styling_witness :
    (emitEdge { visited := [], parts := [], linkIndex := -1 } "A"
        { event := some "failed", conditions := none, next := some "B" } "B").parts =
      ["    A --> |failed| B", "    linkStyle 0 stroke:red"] ∧
    (emitEdge { visited := [], parts := [], linkIndex := -1 } "A"
        { event := some "failed", conditions := some [ { friendly_name := some "Yes" } ],
          next := some "B" } "B").parts =
      ["    A --> |Yes| B"] := by
  constructor
  · have h := (C1_failure_styling { visited := [], parts := [], linkIndex := -1 } "A" "B"
      { event := some "failed", conditions := none, next := some "B" }).1
      (by decide) (Or.inl rfl)
    simpa using h
  · have h := (C1_failure_styling { visited := [], parts := [], linkIndex := -1 } "A" "B"
      { event := some "failed", conditions := some [ { friendly_name := some "Yes" } ],
        next := some "B" }).2 { friendly_name := some "Yes" } [] rfl
    simpa using h

/-- C7: edge-labelling precedence.  A transition with a truthy condition list
is labelled by the first condition's friendly label (one line, never the event
name); with no condition and event exactly "next" the edge is unlabelled; with
no condition and any other event the edge is labelled by the raw event name,
followed by the red styling line referencing the new link index exactly when
the event is "failed" or "timeout" (in particular for "timeout"). -/
theorem C7_edge_labeling (st : RenderState) (stateName ns e : String)
    (t : PyTransition) :
    (∀ c cs, t.conditions = some (c :: cs) →
      (emitEdge st stateName t ns).parts =
        st.parts ++
          ["    " ++ stateName ++ " --> |" ++ pyStr c.friendly_name ++ "| " ++ ns]) ∧
    (truthyConditions t.conditions = false → t.event = some "next" →
      (emitEdge st stateName t ns).parts =
        st.parts ++ ["    " ++ stateName ++ " --> " ++ ns]) ∧
    (truthyConditions t.conditions = false → t.event = some e → e ≠ "next" →
      (emitEdge st stateName t ns).parts =
        st.parts ++
          (["    " ++ stateName ++ " --> |" ++ e ++ "| " ++ ns] ++
            (if e = "failed" ∨ e = "timeout" then
              ["    linkStyle " ++ toString (st.linkIndex + 1) ++ " stroke:red"]
             else []))) := by
  refine ⟨?_, ?_, ?_⟩
  · intro c cs hc
    simp [emitEdge, hc]
  · intro hcond hev
    match hc : t.conditions with
    | some (c :: _) => rw [hc] at hcond; simp [truthyConditions] at hcond
    | some [] => simp [emitEdge, hc, hev]
    | none => simp [emitEdge, hc, hev]
  · intro hcond hev hne
    have hsplit : (e = "failed" ∨ e = "timeout") ∨ ¬(e = "failed" ∨ e = "timeout") := by
      by_cases h1 : e = "failed"
      · exact Or.inl (Or.inl h1)
      · by_cases h2 : e = "timeout"
        · exact Or.inl (Or.inr h2)
        · exact Or.inr (by simp [h1, h2])
    match hc : t.conditions with
    | some (c :: _) => rw [hc] at hcond; simp [truthyConditions] at hcond
    | some [] =>
      rcases hsplit with h | h
      · rcases h with h1 | h1 <;> subst h1 <;>
          simp [emitEdge, hc, hev, pyStr]
      · have h1 : e ≠ "failed" := fun hh => h (Or.inl hh)
        have h2 : e ≠ "timeout" := fun hh => h (Or.inr hh)
        simp [emitEdge, hc, hev, pyStr, hne, h1, h2, h]
    | none =>
      rcases hsplit with h | h
      · rcases h with h1 | h1 <;> subst h1 <;>
          simp [emitEdge, hc, hev, pyStr]
      · have h1 : e ≠ "failed" := fun hh => h (Or.inl hh)
        have h2 : e ≠ "timeout" := fun hh => h (Or.inr hh)
        simp [emitEdge, hc, hev, pyStr, hne, h1, h2, h]

/-- Witness for C7: all three precedence branches at concrete transitions. -/
theorem C7_edge_labeling_witness :
    (emitEdge { visited := [], parts := [], linkIndex := -1 } "A"
        { event := some "custom", conditions := some [ { friendly_name := some "Go" } ],
          next := some "B" } "B").parts = ["    A --> |Go| B"] ∧
    (emitEdge { visited := [], parts := [], linkIndex := -1 } "A"
        { event := some "next", conditions := none, next := some "B" } "B").parts =
      ["    A --> B"] ∧
    (emitEdge { visited := [], parts := [], linkIndex := -1 } "A"
        { event := some "timeout", conditions := none, next := some "B" } "B").parts =
      ["    A --> |timeout| B", "    linkStyle 0 stroke:red"] := by
  refine ⟨?_, ?_, ?_⟩
  · have h := (C7_edge_labeling { visited := [], parts := [], linkIndex := -1 } "A" "B" "custom"
      { event := some "custom", conditions := some [ { friendly_name := some "Go" } ],
        next := some "B" }).1 { friendly_name := some "Go" } [] rfl
    simpa using h
  · have h := (C7_edge_labeling { visited := [], parts := [], linkIndex := -1 } "A" "B" "next"
      { event := some "next", conditions := none, next := some "B" }).2.1 (by decide) rfl
    simpa using h
  · have h := (C7_edge_labeling { visited := [], parts := [], linkIndex := -1 } "A" "B" "timeout"
      { event := some "timeout", conditions := none, next := some "B" }).2.2 (by decide) rfl
      (by decide)
    simpa using h

/-! ## Claims C2 and C3: error handling at the renderer boundary -/

/-- C2 counterexample: on a flow definition lacking a `states` collection, the
diagram renderer does not log-and-return-empty; it raises `KeyError` when
building the identifier-to-state mapping (the state extractor, by contrast,
returns the empty result). -/
theorem C2_counterexample :
    generate_mermaid_graph (some "A") { states := none } none =
      Except.error "KeyError: states" := by
  rfl

/-- C2 amended: on a flow definition lacking a `states` collection, the state
extractor returns the empty result without raising, while the diagram
renderer raises a `KeyError` past its boundary. -/
theorem C2_missing_states (fd : FlowDefinition) (tt : TriggerType)
    (initial : Option String) (h : fd.states = none) :
    get_states_by_trigger_type fd tt = Except.ok [] ∧
      generate_mermaid_graph initial fd none = Except.error "KeyError: states" := by
  rcases fd with ⟨os⟩
  cases h
  exact ⟨rfl, rfl⟩

/-- Witness for C2's amended theorem at a concrete empty definition. -/
theorem C2_missing_states_witness :
    get_states_by_trigger_type { states := none } TriggerType.INCOMING_CALL = Except.ok [] ∧
      generate_mermaid_graph (some "X") { states := none } none =
        Except.error "KeyError: states" :=
  C2_missing_states { states := none } TriggerType.INCOMING_CALL (some "X") rfl

/-- C3 counterexample: with a friendly-name source whose content is not valid
JSON, the renderer raises the decode error instead of falling back to raw
identifiers — on this flow the fallback rendering would have succeeded. -/
theorem C3_counterexample :
    generate_mermaid_graph (some "B") c1Flow (some none) =
      Except.error "json.JSONDecodeError" ∧
      generate_mermaid_graph (some "B") c1Flow none =
        Except.ok ["```mermaid", "flowchart TD", "    B(B)", "```"] := by
  constructor
  · rfl
  · rfl

/-- C3 amended: a malformed friendly-name source makes the renderer raise the
JSON decode error for every input; it never reaches the fallback that labels
states by raw identifier. -/
theorem C3_malformed_friendly_source (initial : Option String)
    (fd : FlowDefinition) :
    generate_mermaid_graph initial fd (some none) =
      Except.error "json.JSONDecodeError" := by
  rfl

/-! ## Claim C5: termination and at-most-once visits for both traversals -/

theorem dictGet_mkStateMap_none (states : List PyState) (s : String)
    (h : s ∉ states.map PyState.name) : dictGet (mkStateMap states) s = none := by
  rw [dictGet]
  cases hf : (mkStateMap states).reverse.find? (fun p => p.1 == s) with
  | none => rfl
  | some p =>
    exfalso
    have hp := List.find?_some hf
    have hm := List.mem_of_find?_eq_some hf
    rw [List.mem_reverse] at hm
    rw [beq_iff_eq] at hp
    apply h
    rw [mkStateMap] at hm
    obtain ⟨st, hst, hpe⟩ := List.mem_map.mp hm
    refine List.mem_map.mpr ⟨st, hst, ?_⟩
    rw [← hpe] at hp
    exact hp

/-- C5: on every finite flow graph — cyclic ones included — both the
reachability traversal and the diagram-rendering traversal terminate (any
recursion-depth budget beyond the number of distinct state names yields the
same result, so the unbounded Python recursion is bounded), visit each state
at most once (the visited list stays duplicate-free), have identical visited
dynamics (a state is marked visited before its transitions are expanded in
both), and the reachability traversal collects exactly the states reachable
from the entry: each reachable state is visited exactly once. -/
theorem C5_traversals_terminate_visit_once (states : List PyState)
    (friendly : List (String × String)) (st : RenderState) (v : List String)
    (entry x : String) (f f₁ f₂ : Nat)
    (hb1 : numKeys (mkStateMap states) < f₁)
    (hb2 : numKeys (mkStateMap states) < f₂)
    (hndR : st.visited.Nodup) (hndC : v.Nodup) :
    (traverse_collect (mkStateMap states) f₁ v entry =
       traverse_collect (mkStateMap states) f₂ v entry) ∧
    (traverse_state (mkStateMap states) friendly f₁ st entry =
       traverse_state (mkStateMap states) friendly f₂ st entry) ∧
    (traverse_collect (mkStateMap states) f v entry).Nodup ∧
    (traverse_state (mkStateMap states) friendly f st entry).visited.Nodup ∧
    ((traverse_state (mkStateMap states) friendly f st entry).visited =
       traverse_collect (mkStateMap states) f st.visited entry) ∧
    (x ∈ traverse_collect (mkStateMap states) f₁ [] entry ↔
       ReachTo (mkStateMap states) entry x) := by
  refine ⟨?_, ?_, ?_, ?_, ?_, ?_, ?_⟩
  · exact traverse_collect_stable (mkStateMap states) (numKeys (mkStateMap states))
      v entry f₁ f₂ (unvisitedCount_le_numKeys _ v) hb1 hb2
  · exact traverse_state_stable (mkStateMap states) friendly (numKeys (mkStateMap states))
      st entry f₁ f₂ (unvisitedCount_le_numKeys _ st.visited) hb1 hb2
  · exact traverse_collect_nodup (mkStateMap states) f v entry hndC
  · rw [traverse_state_visited_eq]
    exact traverse_collect_nodup (mkStateMap states) f st.visited entry hndR
  · exact traverse_state_visited_eq (mkStateMap states) friendly f st entry
  · intro hx
    rcases traverse_collect_sound (mkStateMap states) f₁ [] entry x hx with h1 | h2
    · simp at h1
    · exact h2
  · intro hr
    exact traverse_collect_complete (mkStateMap states) f₁ hb1 entry x hr

/-- Witness for C5 on a concrete cyclic graph: the traversal result is fuel
independent, duplicate-free, and contains the state B reached through the
cycle, with reachability established explicitly. -/
theorem C5_traversals_terminate_visit_once_witness :
    (traverse_collect (mkStateMap c5States) 3 [] "A" =
       traverse_collect (mkStateMap c5States) 30 [] "A") ∧
    (traverse_collect (mkStateMap c5States) 3 [] "A").Nodup ∧
    ("B" ∈ traverse_collect (mkStateMap c5States) 3 [] "A" ↔
       ReachTo (mkStateMap c5States) "A" "B") := by
  have h := C5_traversals_terminate_visit_once c5States []
    { visited := [], parts := [], linkIndex := -1 } [] "A" "B" 3 3 30
    (by decide) (by decide) (by decide) (by decide)
  exact ⟨h.1, h.2.2.1, h.2.2.2.2.2⟩

/-! ## Claim C8: output is always a fenced block -/

/-- C8: every successful render starts with the open fence and flowchart
declaration lines and ends with the closing fence; an absent (`none`) initial
state, or one naming no state of the graph, yields exactly the empty fenced
block. -/
theorem C8_fenced_output (initial : Option String) (fd : FlowDefinition)
    (sf : Option (Option (List (String × String)))) (out : List String)
    (h : generate_mermaid_graph initial fd sf = Except.ok out) :
    (∃ body, out = ["```mermaid", "flowchart TD"] ++ body ++ ["```"]) ∧
    (initial = none → out = ["```mermaid", "flowchart TD", "```"]) ∧
    (∀ s states, initial = some s → fd.states = some states →
      s ∉ states.map PyState.name →
      out = ["```mermaid", "flowchart TD", "```"]) := by
  rcases fd with ⟨ostates⟩
  rcases ostates with _ | states
  · exfalso
    rcases sf with _ | sfo
    · simp [generate_mermaid_graph] at h
    · rcases sfo with _ | m
      · simp [generate_mermaid_graph] at h
      · simp [generate_mermaid_graph] at h
  · have core : ∀ (friendly : List (String × String)),
        out = (match initial with
          | some s => traverse_state (mkStateMap states) friendly
              (numKeys (mkStateMap states) + 1)
              { visited := [], parts := ["```mermaid", "flowchart TD"], linkIndex := -1 } s
          | none =>
              ({ visited := [], parts := ["```mermaid", "flowchart TD"], linkIndex := -1 } :
                RenderState)).parts ++ ["```"] →
        (∃ body, out = ["```mermaid", "flowchart TD"] ++ body ++ ["```"]) ∧
        (initial = none → out = ["```mermaid", "flowchart TD", "```"]) ∧
        (∀ s states', initial = some s →
          (FlowDefinition.states { states := some states }) = some states' →
          s ∉ states'.map PyState.name →
          out = ["```mermaid", "flowchart TD", "```"]) := by
      intro friendly hout
      cases initial with
      | none =>
        have hout' : out = ["```mermaid", "flowchart TD", "```"] := by rw [hout]; rfl
        refine ⟨⟨[], by rw [hout']; rfl⟩, fun _ => hout', ?_⟩
        intro s states' hinit hstates hmem
        cases hinit
      | some s =>
        have hout' : out = (traverse_state (mkStateMap states) friendly
            (numKeys (mkStateMap states) + 1)
            { visited := [], parts := ["```mermaid", "flowchart TD"], linkIndex := -1 }
            s).parts ++ ["```"] := hout
        refine ⟨?_, ?_, ?_⟩
        · obtain ⟨e, he⟩ := traverse_state_parts_extend (mkStateMap states) friendly
            (numKeys (mkStateMap states) + 1)
            { visited := [], parts := ["```mermaid", "flowchart TD"], linkIndex := -1 } s
          refine ⟨e, ?_⟩
          rw [hout', he, List.append_assoc]
        · intro hcontra
          simp at hcontra
        · intro s' states' hinit hstates hmem
          have hseq : s = s' := Option.some.inj hinit
          subst hseq
          have hsteq : states = states' := Option.some.inj hstates
          subst hsteq
          have hdg : dictGet (mkStateMap states) s = none :=
            dictGet_mkStateMap_none states s hmem
          have htr : traverse_state (mkStateMap states) friendly
              (numKeys (mkStateMap states) + 1)
              { visited := [], parts := ["```mermaid", "flowchart TD"], linkIndex := -1 }
              s = { visited := [], parts := ["```mermaid", "flowchart TD"], linkIndex := -1 } := by
            simp [traverse_state, hdg]
          rw [hout', htr]
          rfl
    rcases sf with _ | sfo
    · have h' : Except.ok ((match initial with
          | some s => traverse_state (mkStateMap states) []
              (numKeys (mkStateMap states) + 1)
              { visited := [], parts := ["```mermaid", "flowchart TD"], linkIndex := -1 } s
          | none =>
              ({ visited := [], parts := ["```mermaid", "flowchart TD"], linkIndex := -1 } :
                RenderState)).parts ++ ["```"]) = (Except.ok out : Except String (List String)) := h
      exact core [] (Except.ok.inj h').symm
    · rcases sfo with _ | m
      · exfalso
        simp [generate_mermaid_graph] at h
      · have h' : Except.ok ((match initial with
            | some s => traverse_state (mkStateMap states) m
                (numKeys (mkStateMap states) + 1)
                { visited := [], parts := ["```mermaid", "flowchart TD"], linkIndex := -1 } s
            | none =>
                ({ visited := [], parts := ["```mermaid", "flowchart TD"], linkIndex := -1 } :
                  RenderState)).parts ++ ["```"]) = (Except.ok out : Except String (List String)) := h
        exact core m (Except.ok.inj h').symm

/-- Witness for C8: the empty graph with an entry name renders to the empty
fenced block, and the shape conjuncts hold there. -/
theorem C8_fenced_output_witness :
    (∃ body, (["```mermaid", "flowchart TD", "```"] : List String) =
        ["```mermaid", "flowchart TD"] ++ body ++ ["```"]) ∧
    ((some "Z" : Option String) = none →
      (["```mermaid", "flowchart TD", "```"] : List String) =
        ["```mermaid", "flowchart TD", "```"]) ∧
    (∀ s states, (some "Z" : Option String) = some s →
      (FlowDefinition.states { states := some [] }) = some states →
      s ∉ states.map PyState.name →
      (["```mermaid", "flowchart TD", "```"] : List String) =
        ["```mermaid", "flowchart TD", "```"]) :=
  C8_fenced_output (some "Z") { states := some [] } none
    ["```mermaid", "flowchart TD", "```"] rfl

/-! ## Section-updater lemmas and claims C4, C9 -/

theorem beginsWith_iff (p : List Char) :
    ∀ s : List Char, beginsWith p s = true ↔ ∃ t, s = p ++ t := by
  induction p with
  | nil =>
    intro s
    constructor
    · intro _
      exact ⟨s, by simp⟩
    · intro _
      rfl
  | cons c p ih =>
    intro s
    cases s with
    | nil =>
      simp [beginsWith]
    | cons d s' =>
      rw [beginsWith]
      simp only [Bool.and_eq_true, beq_iff_eq]
      constructor
      · rintro ⟨rfl, h⟩
        obtain ⟨t, rfl⟩ := (ih s').mp h
        exact ⟨t, rfl⟩
      · rintro ⟨t, ht⟩
        injection ht with h1 h2
        exact ⟨h1.symm, (ih s').mpr ⟨t, h2⟩⟩

theorem beginsWith_append (p t : List Char) : beginsWith p (p ++ t) = true :=
  (beginsWith_iff p (p ++ t)).mpr ⟨t, rfl⟩

theorem splitAtFirst_decomp (pat : List Char) :
    ∀ (s b a : List Char), splitAtFirst pat s = some (b, a) → s = b ++ pat ++ a := by
  intro s
  induction s with
  | nil =>
    intro b a h
    simp [splitAtFirst] at h
  | cons c rest ih =>
    intro b a h
    rw [splitAtFirst] at h
    by_cases hp : beginsWith pat (c :: rest) = true
    · rw [if_pos hp] at h
      have h2 := Option.some.inj h
      have hb : b = [] := (congrArg Prod.fst h2).symm
      have ha : a = (c :: rest).drop pat.length := (congrArg Prod.snd h2).symm
      subst hb
      subst ha
      obtain ⟨t, ht⟩ := (beginsWith_iff pat (c :: rest)).mp hp
      rw [ht, List.drop_left]
      simp
    · rw [if_neg hp] at h
      cases hsp : splitAtFirst pat rest with
      | none =>
        rw [hsp] at h
        cases h
      | some p =>
        rcases p with ⟨b', a'⟩
        rw [hsp] at h
        have h2 := Option.some.inj h
        have hb : b = c :: b' := (congrArg Prod.fst h2).symm
        have ha : a = a' := (congrArg Prod.snd h2).symm
        subst hb
        subst ha
        have hres := ih b' a hsp
        simp [hres]

theorem occursIn_of_append (pat : List Char) (hpat : pat ≠ []) :
    ∀ (u w : List Char), occursIn pat (u ++ pat ++ w) = true := by
  intro u
  induction u with
  | nil =>
    intro w
    rw [occursIn]
    match pat, hpat with
    | p0 :: ptail, _ =>
      have hb : beginsWith (p0 :: ptail) ((p0 :: ptail) ++ w) = true :=
        beginsWith_append (p0 :: ptail) w
      rw [List.nil_append, List.cons_append, splitAtFirst]
      rw [← List.cons_append, if_pos hb]
      rfl
  | cons c u' ih =>
    intro w
    rw [occursIn]
    rw [List.cons_append, List.cons_append, splitAtFirst]
    by_cases hb : beginsWith pat (c :: (u' ++ pat ++ w)) = true
    · rw [if_pos hb]
      rfl
    · rw [if_neg hb]
      have hocc := ih w
      rw [occursIn] at hocc
      cases hsp : splitAtFirst pat (u' ++ pat ++ w) with
      | none =>
        rw [hsp] at hocc
        cases hocc
      | some p =>
        rcases p with ⟨b', a'⟩
        rfl

theorem occursIn_cons_false (pat : List Char) (c : Char) (t : List Char)
    (h : occursIn pat (c :: t) = false) : occursIn pat t = false := by
  rw [occursIn] at h ⊢
  rw [splitAtFirst] at h
  by_cases hb : beginsWith pat (c :: t) = true
  · rw [if_pos hb] at h
    cases h
  · rw [if_neg hb] at h
    cases hsp : splitAtFirst pat t with
    | none => simp [hsp]
    | some p =>
      rcases p with ⟨x, y⟩
      rw [hsp] at h
      cases h

theorem splitAtFirst_prepend (pat : List Char) (hpat : pat ≠ []) :
    ∀ (b rest : List Char), occursIn pat (b ++ pat.dropLast) = false →
      splitAtFirst pat (b ++ pat ++ rest) = some (b, rest) := by
  intro b
  induction b with
  | nil =>
    intro rest hocc
    match pat, hpat with
    | p0 :: ptail, _ =>
      have hb : beginsWith (p0 :: ptail) ((p0 :: ptail) ++ rest) = true :=
        beginsWith_append (p0 :: ptail) rest
      rw [List.nil_append, List.cons_append, splitAtFirst]
      rw [← List.cons_append, if_pos hb, List.drop_left]
  | cons c b' ih =>
    intro rest hocc
    have hlast := List.dropLast_append_getLast hpat
    have hb : ¬ beginsWith pat (c :: (b' ++ pat ++ rest)) = true := by
      intro hbw
      obtain ⟨t, ht⟩ := (beginsWith_iff pat _).mp hbw
      have hwhole : (c :: b') ++ pat ++ rest =
          ((c :: b') ++ pat.dropLast) ++ ([pat.getLast hpat] ++ rest) := by
        conv =>
          left
          rw [← hlast]
        simp [List.append_assoc]
      have hp1 : pat <+: ((c :: b') ++ pat ++ rest) := ⟨t, by
        rw [List.cons_append]
        exact ht.symm⟩
      have hp2 : ((c :: b') ++ pat.dropLast) <+: ((c :: b') ++ pat ++ rest) :=
        ⟨[pat.getLast hpat] ++ rest, hwhole.symm⟩
      have hlen : pat.length ≤ ((c :: b') ++ pat.dropLast).length := by
        have hplen : 1 ≤ pat.length := by
          cases pat with
          | nil => exact absurd rfl hpat
          | cons _ _ => simp
        simp [List.length_append, List.length_dropLast]
        omega
      have hp3 : pat <+: ((c :: b') ++ pat.dropLast) :=
        List.prefix_of_prefix_length_le hp1 hp2 hlen
      obtain ⟨w, hw⟩ := hp3
      have : occursIn pat ((c :: b') ++ pat.dropLast) = true := by
        rw [← hw]
        exact occursIn_of_append pat hpat [] w
      rw [this] at hocc
      cases hocc
    rw [List.cons_append, List.cons_append, splitAtFirst, if_neg hb]
    have hocc' : occursIn pat (b' ++ pat.dropLast) = false := by
      apply occursIn_cons_false pat c
      rw [← List.cons_append]
      exact hocc
    rw [ih rest hocc']

theorem splitAtFirst_length (pat s b a : List Char)
    (h : splitAtFirst pat s = some (b, a)) :
    s.length = b.length + pat.length + a.length := by
  have := splitAtFirst_decomp pat s b a h
  subst this
  simp [List.length_append]
  omega

theorem reSubFuel_stable (sTag eTag repl : List Char) (hs : sTag ≠ []) :
    ∀ (n : Nat) (s : List Char) (f₁ f₂ : Nat), s.length ≤ n → n < f₁ → n < f₂ →
      reSubFuel sTag eTag repl f₁ s = reSubFuel sTag eTag repl f₂ s := by
  intro n
  induction n with
  | zero =>
    intro s f₁ f₂ hl h1 h2
    match f₁, f₂ with
    | a + 1, b + 1 =>
      have hsnil : s = [] := List.length_eq_zero.mp (Nat.le_zero.mp hl)
      subst hsnil
      rfl
  | succ n ihn =>
    intro s f₁ f₂ hl h1 h2
    match f₁, f₂ with
    | a + 1, b + 1 =>
      cases hsp : splitAtFirst sTag s with
      | none => simp [reSubFuel, hsp]
      | some p =>
        rcases p with ⟨bb, afterS⟩
        cases hsp2 : splitAtFirst eTag afterS with
        | none => simp [reSubFuel, hsp, hsp2]
        | some q =>
          rcases q with ⟨mid, afterE⟩
          simp only [reSubFuel, hsp, hsp2]
          have hlen1 := splitAtFirst_length sTag s bb afterS hsp
          have hlen2 := splitAtFirst_length eTag afterS mid afterE hsp2
          have hs1 : 1 ≤ sTag.length := by
            cases sTag with
            | nil => exact absurd rfl hs
            | cons _ _ => simp
          have hafter : afterE.length ≤ n := by omega
          rw [ihn afterE a b hafter (by omega) (by omega)]

theorem re_sub_of_fuel (sTag eTag repl : List Char) (hs : sTag ≠ [])
    (s : List Char) (f : Nat) (hf : s.length < f) :
    reSubFuel sTag eTag repl f s = re_sub sTag eTag repl s :=
  reSubFuel_stable sTag eTag repl hs s.length s f (s.length + 1) le_rfl hf (by omega)

theorem startTag_ne_nil (sectionId : String) : startTag sectionId ≠ [] := by
  have h : startTag sectionId =
      '<' :: ("!-- ".toList ++ sectionId.toList ++ "-start -->".toList) := by
    rw [startTag]
    rfl
  rw [h]
  simp

theorem endTag_ne_nil (sectionId : String) : endTag sectionId ≠ [] := by
  have h : endTag sectionId =
      '<' :: ("!-- ".toList ++ sectionId.toList ++ "-end -->".toList) := by
    rw [endTag]
    rfl
  rw [h]
  simp

/-- C9: the section updater reports (rather than crashing) when the target
document does not exist, and when the document has no marker pair for the tag
— either no start marker at all, or a start marker with no end marker after
it — the document content is written back unchanged (a no-op, not an
error).  The no-op conjuncts assume the replacement template is backslash
free: with a backslash in `g` or the tag, `re.sub`'s template processing
applies up front (an invalid escape raises `re.error` even with zero
matches), which is outside the claim's marker handling. -/
theorem C9_updater_error_handling (g sectionId : String)
    (content b r : List Char)
    (hrepl : (startTag sectionId ++ '\n' :: (g.toList ++ '\n' :: endTag sectionId)).contains '\\'
      = false) :
    (update_mermaid_graph none g sectionId = UpdateResult.reportedMissing) ∧
    (occursIn (startTag sectionId) content = false →
      update_mermaid_graph (some content) g sectionId = UpdateResult.wrote content) ∧
    (splitAtFirst (startTag sectionId) content = some (b, r) →
      occursIn (endTag sectionId) r = false →
      update_mermaid_graph (some content) g sectionId = UpdateResult.wrote content) := by
  refine ⟨rfl, ?_, ?_⟩
  · intro hocc
    have hnone : splitAtFirst (startTag sectionId) content = none := by
      cases hsp : splitAtFirst (startTag sectionId) content with
      | none => rfl
      | some p =>
        rw [occursIn, hsp] at hocc
        cases hocc
    simp only [update_mermaid_graph, hrepl, Bool.false_eq_true, if_false,
      re_sub, reSubFuel, hnone]
  · intro hsp hocc
    have hend : splitAtFirst (endTag sectionId) r = none := by
      cases hsp2 : splitAtFirst (endTag sectionId) r with
      | none => rfl
      | some p =>
        rw [occursIn, hsp2] at hocc
        cases hocc
    simp only [update_mermaid_graph, hrepl, Bool.false_eq_true, if_false,
      re_sub, reSubFuel, hsp, hend]

/-- Witness for C9: a missing file, a document without markers, and a
document with a start marker but no end marker. -/
theorem C9_updater_error_handling_witness :
    (update_mermaid_graph none "G" "diagram" = UpdateResult.reportedMissing) ∧
    (update_mermaid_graph (some ("no markers here".toList)) "G" "diagram" =
      UpdateResult.wrote ("no markers here".toList)) ∧
    (update_mermaid_graph (some ("x<!-- diagram-start -->y".toList)) "G" "diagram" =
      UpdateResult.wrote ("x<!-- diagram-start -->y".toList)) := by
  have h1 := C9_updater_error_handling "G" "diagram" ("no markers here".toList) [] []
    (by decide)
  have h2 := C9_updater_error_handling "G" "diagram"
    ("x<!-- diagram-start -->y".toList) ("x".toList) ("y".toList) (by decide)
  exact ⟨h1.1, h1.2.1 (by decide), h2.2.2 (by decide) (by decide)⟩

/-- C4 counterexample: on a document with two "diagram" marker pairs, the
updater (re.sub with no count) replaces BOTH regions; the claim that the
second pair is left byte-for-byte identical is false. -/
theorem C4_counterexample :
    update_mermaid_graph (some c4Doc) "G" "diagram" =
        UpdateResult.wrote c4BothReplaced ∧
      c4BothReplaced ≠ c4FirstOnly := by
  constructor
  · rfl
  · decide

/-- C4 amended: for a document of the form `b ++ start ++ m ++ end ++ rest`
where the start marker does not occur before the marked occurrence and the
end marker does not occur inside `m`, the updater replaces the region from
that start marker to that end marker with start marker, newline, content,
newline, end marker, leaves `b` byte-for-byte identical, and then applies the
same replacement recursively to `rest` — so any later marker pairs are also
replaced, not left identical.  Assumes the replacement template is backslash
free; otherwise `re.sub`'s template processing (group substitution or
`re.error`) applies instead of a literal splice. -/
theorem C4_replace_section (sectionId newGraph : String) (b m rest : List Char)
    (hrepl : (startTag sectionId ++ '\n' :: (newGraph.toList ++ '\n' :: endTag sectionId)).contains '\\'
      = false)
    (hb : occursIn (startTag sectionId) (b ++ (startTag sectionId).dropLast) = false)
    (hm : occursIn (endTag sectionId) (m ++ (endTag sectionId).dropLast) = false) :
    update_mermaid_graph
        (some (b ++ startTag sectionId ++ m ++ endTag sectionId ++ rest))
        newGraph sectionId =
      UpdateResult.wrote
        (b ++ (startTag sectionId ++ '\n' :: (newGraph.toList ++ '\n' :: endTag sectionId)) ++
          re_sub (startTag sectionId) (endTag sectionId)
            (startTag sectionId ++ '\n' :: (newGraph.toList ++ '\n' :: endTag sectionId))
            rest) := by
  have hsne := startTag_ne_nil sectionId
  have hene := endTag_ne_nil sectionId
  have h1 : splitAtFirst (startTag sectionId)
      (b ++ startTag sectionId ++ (m ++ endTag sectionId ++ rest)) =
      some (b, m ++ endTag sectionId ++ rest) :=
    splitAtFirst_prepend (startTag sectionId) hsne b (m ++ endTag sectionId ++ rest) hb
  have h2 : splitAtFirst (endTag sectionId) (m ++ endTag sectionId ++ rest) =
      some (m, rest) :=
    splitAtFirst_prepend (endTag sectionId) hene m rest hm
  have hassoc : b ++ startTag sectionId ++ m ++ endTag sectionId ++ rest =
      b ++ startTag sectionId ++ (m ++ endTag sectionId ++ rest) := by
    simp [List.append_assoc]
  rw [hassoc]
  simp only [update_mermaid_graph, hrepl, Bool.false_eq_true, if_false]
  congr 1
  rw [re_sub]
  simp only [reSubFuel, h1, h2]
  have hs1 : 1 ≤ (startTag sectionId).length := by
    have := List.length_pos.mpr hsne
    omega
  have hrest : rest.length <
      (b ++ startTag sectionId ++ (m ++ endTag sectionId ++ rest)).length := by
    simp only [List.length_append]
    omega
  rw [re_sub_of_fuel (startTag sectionId) (endTag sectionId) _ hsne rest _ hrest]

/-- Witness for C4's amended theorem at a concrete one-pair document. -/
theorem C4_replace_section_witness :
    update_mermaid_graph
        (some ("A\n".toList ++ startTag "diagram" ++ "\nold\n".toList ++
          endTag "diagram" ++ "Z".toList)) "G" "diagram" =
      UpdateResult.wrote
        ("A\n".toList ++ (startTag "diagram" ++ '\n' :: ("G".toList ++ '\n' :: endTag "diagram")) ++
          re_sub (startTag "diagram") (endTag "diagram")
            (startTag "diagram" ++ '\n' :: ("G".toList ++ '\n' :: endTag "diagram"))
            ("Z".toList)) :=
  C4_replace_section "diagram" "G" ("A\n".toList) ("\nold\n".toList) ("Z".toList)
    (by decide) (by decide) (by decide)
